import Mathlib

/-!
Verification of the decision-forest core of TensorMONK
(`src/tensormonk/architectures/trees.py`).

A 2-D tensor of shape (B, n) is embedded as a `List (List ℝ)` with B rows;
every tensor operation used by `NeuralTree.forward` (column slicing,
`unsqueeze`/`cat` along dim 2 followed by `view(BSZ, -1)`, elementwise `mul`,
`sum` over a dimension) acts on each row independently, so it is embedded as
the corresponding operation on each row.  Floating point arithmetic is
modelled by exact real arithmetic.
-/

namespace TensorMONK

/-- Python `range(a, b)` as a list of naturals (empty when `b ≤ a`). -/
def pyRange (a b : ℕ) : List ℕ := List.range' a (b - a)

/-- `np.cumsum` on a list of naturals: running inclusive prefix sums. -/
def cumsum : List ℕ → List ℕ
  | [] => []
  | a :: as => a :: (cumsum as).map (a + ·)

/-- `self.n_leafs = 2**(depth+1)` from `NeuralTree.__init__`. -/
def n_leafs (depth : ℕ) : ℕ := 2 ^ (depth + 1)

/-- `self.decision_per_depth = [2**x for x in range(depth+1)]`. -/
def decision_per_depth (depth : ℕ) : List ℕ :=
  (List.range (depth + 1)).map (2 ^ ·)

/-- `self.indices_per_depth = [list(range(y-x, max(1, y))) for x, y in
    zip(self.decision_per_depth, np.cumsum(self.decision_per_depth))]`. -/
def indices_per_depth (depth : ℕ) : List (List ℕ) :=
  (List.zip (decision_per_depth depth) (cumsum (decision_per_depth depth))).map
    (fun p => pyRange (p.2 - p.1) (max 1 p.2))

/-- One row of `torch.cat((decision.unsqueeze(2), 1 - decision.unsqueeze(2)), 2)
    .view(BSZ, -1)`: each entry `d` is replaced by the adjacent pair `d, 1-d`. -/
def expand (v : List ℝ) : List ℝ := v.flatMap (fun d => [d, 1 - d])

/-- One row of the column gather `leaf_responses[:, x]` (indices are in range
    in every reachable call; out-of-range indices default to 0). -/
def levelSlice (responses : List ℝ) (idx : List ℕ) : List ℝ :=
  idx.map (fun i => responses.getD i 0)

/-- One iteration of the loop `for x in self.indices_per_depth[1:]` in
    `NeuralTree.forward`, acting on one row: expand with complements, then
    multiply elementwise by the current depth's decisions. -/
def decisionStep (responses v : List ℝ) (x : List ℕ) : List ℝ :=
  List.zipWith (· * ·) (expand v) (levelSlice responses x)

/-- The decision (first return value) of `NeuralTree.forward` on one row of
    scoring sub-network responses: start from the root slice, run the per-depth
    loop, and apply the final expand-with-complement step. -/
def rowDecision (depth : ℕ) (responses : List ℝ) : List ℝ :=
  expand ((indices_per_depth depth).tail.foldl (decisionStep responses)
    (levelSlice responses ((indices_per_depth depth).headD [])))

/-- One row of `F.softmax(self.weight, 1)`. -/
noncomputable def softmaxRow (w : List ℝ) : List ℝ :=
  w.map (fun x => Real.exp x / (w.map Real.exp).sum)

/-- One row of `decision.unsqueeze(2).mul(F.softmax(self.weight, 1)
    .unsqueeze(0))` followed by `.sum(1)`: entry `l` is
    `Σ_leaf decision[leaf] * softmax(weight)[leaf][l]`. -/
noncomputable def rowPredictions (n_labels : ℕ) (weight : List (List ℝ))
    (dec : List ℝ) : List ℝ :=
  (List.range n_labels).map (fun l =>
    (List.zipWith (fun d srow => d * (softmaxRow srow).getD l 0) dec weight).sum)

/-- `NeuralTree.forward` on a 2-D batch: the scoring sub-network `net`
    (`self.tree`) is an arbitrary batch-to-batch function; every later
    operation acts row by row. -/
noncomputable def treeForward (depth n_labels : ℕ)
    (net : List (List ℝ) → List (List ℝ)) (weight : List (List ℝ))
    (batch : List (List ℝ)) : List (List ℝ) × List (List ℝ) :=
  let dec := (net batch).map (rowDecision depth)
  (dec, dec.map (rowPredictions n_labels weight))

/-- One row of the stride-2 slice `decisions[:, 0::2]`. -/
def everyOther {α : Type} : List α → List α
  | [] => []
  | [a] => [a]
  | a :: _ :: rest => a :: everyOther rest

/-- A tree of `NeuralDecisionForest`: its scoring sub-network and its leaf
    class-distribution weight. -/
def TreeParams : Type :=
  (List (List ℝ) → List (List ℝ)) × List (List ℝ)

/-- `predictions.mean(2)` in `NeuralDecisionForest.forward`: the per-tree
    class-probability vectors stacked along a trailing axis and averaged over
    trees, before `.log()` is applied. -/
noncomputable def forestPreLog (depth n_labels : ℕ) (trees : List TreeParams)
    (batch : List (List ℝ)) : List (List ℝ) :=
  (List.range batch.length).map (fun b =>
    (List.range n_labels).map (fun l =>
      (trees.map (fun t =>
        (((treeForward depth n_labels t.1 t.2 batch).2).getD b []).getD l 0)).sum
        / (trees.length : ℝ)))

/-- `NeuralDecisionForest.forward`: per-tree decisions are concatenated along
    dim 1 (row-wise `join`) and strided with `[:, 0::2]`; per-tree predictions
    are stacked, averaged over trees and passed through elementwise `log`. -/
noncomputable def forestForward (depth n_labels : ℕ) (trees : List TreeParams)
    (batch : List (List ℝ)) : List (List ℝ) × List (List ℝ) :=
  let catDec := (List.range batch.length).map (fun b =>
    (trees.map (fun t =>
      ((treeForward depth n_labels t.1 t.2 batch).1).getD b [])).flatten)
  (catDec.map everyOther,
   (forestPreLog depth n_labels trees batch).map (fun row => row.map Real.log))

/-- Errors raised at construction time: `assert` failures (Python
    `AssertionError`, carrying the message) and out-of-bounds indexing
    (Python `IndexError`). -/
inductive TMError where
  | assertionError : String → TMError
  | indexError : TMError
deriving DecidableEq

/-- The configuration state a `NeuralTree` holds after `__init__`
    (`self.tensor_size` is overwritten to `(None, n_labels)` at the end). -/
structure NeuralTreeHandle where
  n_labels : ℕ
  depth : ℤ
  tensor_size : Option ℕ × Option ℕ
deriving DecidableEq

/-- `NeuralTree.__init__`: `assert depth > 0` fires first; afterwards the
    configuration is recorded and `self.tensor_size = (None, n_labels)`. -/
def NeuralTree.init (n_labels : ℕ) (depth : ℤ) : Except TMError NeuralTreeHandle :=
  if 0 < depth then
    Except.ok ⟨n_labels, depth, (none, some n_labels)⟩
  else
    Except.error (TMError.assertionError "NeuralTree :: depth must be > 0")

/-- The state a `NeuralDecisionForest` holds after `__init__`. -/
structure NDFHandle where
  trees : List NeuralTreeHandle
  tensor_size : Option ℕ × Option ℕ
deriving DecidableEq

/-- `NeuralDecisionForest.__init__`: build `n_trees` trees in order (each may
    raise), then read `self.trees[0].tensor_size`, which raises `IndexError`
    when the list is empty. -/
def NeuralDecisionForest.init (n_labels n_trees : ℕ) (depth : ℤ) :
    Except TMError NDFHandle :=
  match (List.range n_trees).mapM (fun _ => NeuralTree.init n_labels depth) with
  | Except.error e => Except.error e
  | Except.ok trees =>
    match trees.head? with
    | some t => Except.ok ⟨trees, t.tensor_size⟩
    | none => Except.error TMError.indexError

/-- Object identities of the parameters held by one constructed `NeuralTree`:
    the id of its scoring sub-network object (`self.tree`) and the id of its
    leaf class-distribution parameter (`self.weight`). -/
structure TreeIds where
  netId : ℕ
  weightId : ℕ
deriving DecidableEq

/-- Allocation performed by `NeuralTree.__init__`, tracking Python object
    identity with a fresh-id counter: when `network is None` a fresh
    sub-network is built, otherwise the caller-supplied object is stored
    as-is; `self.weight` is always a fresh `nn.Parameter`. -/
def allocTree (customNet : Option ℕ) (c : ℕ) : TreeIds × ℕ :=
  match customNet with
  | some nid => (⟨nid, c⟩, c + 1)
  | none => (⟨c, c + 1⟩, c + 2)

/-- Allocation performed by `NeuralDecisionForest.__init__`: each of the
    `n_trees` comprehension iterations calls `NeuralTree(tensor_size,
    n_labels, depth, dropout, network)` with the same `network` argument. -/
def allocForest (customNet : Option ℕ) : ℕ → ℕ → List TreeIds × ℕ
  | 0, c => ([], c)
  | n + 1, c =>
    let tc := allocTree customNet c
    let rest := allocForest customNet n tc.2
    (tc.1 :: rest.1, rest.2)

/-- The forward output of a constructed tree, reading its scoring sub-network
    and its weight from id-indexed environments (mutating a parameter object
    is updating the environment at its id). -/
noncomputable def treeOutputOf (env : ℕ → List ℝ → List ℝ)
    (wenv : ℕ → List (List ℝ)) (depth n_labels : ℕ) (t : TreeIds)
    (batch : List (List ℝ)) : List (List ℝ) × List (List ℝ) :=
  treeForward depth n_labels (fun rows => rows.map (env t.netId))
    (wenv t.weightId) batch

/-- The conventional root-to-leaf accumulation value at level `k`, node-slot
    `j`: the code's loop computes, at each level, the previous value or its
    complement (by the slot's parity) times that level's decision value.
    This closed form characterises the loop state (see `rowDecision_eq`). -/
def nodeValue (responses : List ℝ) : ℕ → ℕ → ℝ
  | 0, _ => responses.getD 0 0
  | k + 1, j =>
      responses.getD (2 ^ (k + 1) - 1 + j) 0 *
        (if j % 2 = 1 then 1 - nodeValue responses k (j / 2)
         else nodeValue responses k (j / 2))

/-! ### Closed form of the per-depth index bookkeeping -/

theorem cumsum_length : ∀ l : List ℕ, (cumsum l).length = l.length
  | [] => rfl
  | a :: as => by simp [cumsum, cumsum_length as]

theorem cumsum_getElem : ∀ (l : List ℕ) (i : ℕ) (h : i < (cumsum l).length),
    (cumsum l)[i] = (l.take (i + 1)).sum
  | a :: as, 0, _ => by simp [cumsum]
  | a :: as, i + 1, h => by
    have hi : i < (cumsum as).length := by
      simpa [cumsum, cumsum_length] using h
    simp only [cumsum, List.getElem_cons_succ, List.getElem_map,
      cumsum_getElem as i hi, List.take_succ_cons, List.sum_cons]

theorem sum_range_pow : ∀ n : ℕ, ((List.range n).map (2 ^ ·)).sum = 2 ^ n - 1
  | 0 => rfl
  | n + 1 => by
    rw [List.range_succ, List.map_append, List.sum_append, sum_range_pow n]
    have h1 : 1 ≤ 2 ^ n := Nat.one_le_two_pow
    have h2 : 2 ^ (n + 1) = 2 ^ n * 2 := Nat.pow_succ 2 n
    simp only [List.map_cons, List.map_nil, List.sum_cons, List.sum_nil]
    omega

theorem indices_per_depth_eq (D : ℕ) :
    indices_per_depth D =
      (List.range (D + 1)).map (fun k => List.range' (2 ^ k - 1) (2 ^ k)) := by
  refine List.ext_getElem ?_ fun k hk hk' => ?_
  · simp [indices_per_depth, List.length_zip, cumsum_length, decision_per_depth]
  · have hkD : k < D + 1 := by
      simpa [indices_per_depth, List.length_zip, cumsum_length,
        decision_per_depth] using hk
    have hcl : k < (cumsum ((List.range (D + 1)).map (fun x => (2 : ℕ) ^ x))).length := by
      simp [cumsum_length, hkD]
    have hcs : (cumsum ((List.range (D + 1)).map (fun x => (2 : ℕ) ^ x)))[k] =
        2 ^ (k + 1) - 1 := by
      rw [cumsum_getElem _ k hcl, ← List.map_take, List.take_range]
      have : min (k + 1) (D + 1) = k + 1 := by omega
      rw [this, sum_range_pow]
    have h1 : 1 ≤ 2 ^ k := Nat.one_le_two_pow
    have h2 : 2 ^ (k + 1) = 2 ^ k * 2 := Nat.pow_succ 2 k
    simp only [indices_per_depth, List.getElem_map, List.getElem_zip,
      List.getElem_range, hcs, pyRange, decision_per_depth]
    have hmax : max 1 (2 ^ (k + 1) - 1) = 2 ^ (k + 1) - 1 := by omega
    have hsub1 : 2 ^ (k + 1) - 1 - 2 ^ k = 2 ^ k - 1 := by omega
    rw [hmax, hsub1]
    have hsub2 : 2 ^ (k + 1) - 1 - (2 ^ k - 1) = 2 ^ k := by omega
    rw [hsub2]

/-! ### Lemmas about the expand-with-complement step -/

@[simp]
theorem expand_nil : expand [] = [] := rfl

@[simp]
theorem expand_cons (d : ℝ) (v : List ℝ) :
    expand (d :: v) = d :: (1 - d) :: expand v := rfl

theorem expand_length : ∀ v : List ℝ, (expand v).length = 2 * v.length
  | [] => rfl
  | d :: v => by simp [expand_length v]; omega

theorem expand_sum : ∀ v : List ℝ, (expand v).sum = (v.length : ℝ)
  | [] => by simp
  | d :: v => by
    simp only [expand_cons, List.sum_cons, expand_sum v, List.length_cons]
    push_cast
    ring

theorem expand_mem {a : ℝ} {v : List ℝ} (h : a ∈ expand v) :
    ∃ d ∈ v, a = d ∨ a = 1 - d := by
  rcases List.mem_flatMap.1 h with ⟨d, hd, ha⟩
  exact ⟨d, hd, by simpa using ha⟩

theorem expand_getD : ∀ (v : List ℝ) (m : ℕ), m < 2 * v.length →
    (expand v).getD m 0 =
      if m % 2 = 0 then v.getD (m / 2) 0 else 1 - v.getD (m / 2) 0
  | [], m, h => by simp at h
  | d :: v, 0, _ => by simp
  | d :: v, 1, _ => by simp
  | d :: v, m + 2, h => by
    have hm : m < 2 * v.length := by simp at h; omega
    have hmod : (m + 2) % 2 = m % 2 := by omega
    have hdiv : (m + 2) / 2 = m / 2 + 1 := by omega
    simp only [expand_cons, List.getD_cons_succ, hmod, hdiv]
    exact expand_getD v m hm

/-! ### The loop invariant of `NeuralTree.forward` -/

theorem decisionStep_spec (r : List ℝ) (k : ℕ) :
    decisionStep r ((List.range (2 ^ k)).map (nodeValue r k))
        (List.range' (2 ^ (k + 1) - 1) (2 ^ (k + 1))) =
      (List.range (2 ^ (k + 1))).map (nodeValue r (k + 1)) := by
  have hpow : 2 ^ (k + 1) = 2 * 2 ^ k := by rw [Nat.pow_succ]; omega
  refine List.ext_getElem ?_ fun m hm hm' => ?_
  · simp only [decisionStep, List.length_zipWith, expand_length, List.length_map,
      List.length_range, levelSlice, List.length_range']
    omega
  · have hmlt : m < 2 ^ (k + 1) := by simpa using hm'
    have hA : m < (expand ((List.range (2 ^ k)).map (nodeValue r k))).length := by
      simp only [expand_length, List.length_map, List.length_range]
      omega
    simp only [decisionStep, List.getElem_zipWith, levelSlice, List.getElem_map,
      List.getElem_range', List.getElem_range,
      ← List.getD_eq_getElem _ 0 hA, one_mul]
    rw [expand_getD _ m (by simp only [List.length_map, List.length_range]; omega)]
    have hm2 : m / 2 < 2 ^ k := by omega
    have hgd : ((List.range (2 ^ k)).map (nodeValue r k)).getD (m / 2) 0 =
        nodeValue r k (m / 2) := by
      rw [List.getD_eq_getElem _ 0 (by simpa using hm2)]
      simp
    rw [hgd]
    rcases Nat.mod_two_eq_zero_or_one m with h | h <;>
      simp only [nodeValue, h, if_pos, if_neg, one_ne_zero, zero_ne_one,
        reduceCtorEq, reduceIte] <;> ring

theorem loop_spec (r : List ℝ) : ∀ (n k : ℕ),
    ((List.range n).map
        (fun j => List.range' (2 ^ (k + 1 + j) - 1) (2 ^ (k + 1 + j)))).foldl
      (decisionStep r) ((List.range (2 ^ k)).map (nodeValue r k)) =
    (List.range (2 ^ (k + n))).map (nodeValue r (k + n))
  | 0, k => by simp
  | n + 1, k => by
    rw [List.range_succ_eq_map]
    simp only [List.map_cons, List.foldl_cons, Nat.add_zero]
    rw [decisionStep_spec r k]
    have hmap : (List.map Nat.succ (List.range n)).map
          (fun j => List.range' (2 ^ (k + 1 + j) - 1) (2 ^ (k + 1 + j))) =
        (List.range n).map
          (fun j => List.range' (2 ^ (k + 1 + 1 + j) - 1) (2 ^ (k + 1 + 1 + j))) := by
      rw [List.map_map]
      refine List.map_congr_left fun j _ => ?_
      have h : k + 1 + Nat.succ j = k + 1 + 1 + j := by omega
      simp only [Function.comp_apply, h]
    rw [hmap, loop_spec r n (k + 1)]
    have h : k + 1 + n = k + (n + 1) := by omega
    rw [h]

/-- The decision output of `NeuralTree.forward` on one row is the final
    expand-with-complement step applied to the breadth-first vector of
    accumulated node values at the deepest level. -/
theorem rowDecision_eq (D : ℕ) (r : List ℝ) :
    rowDecision D r = expand ((List.range (2 ^ D)).map (nodeValue r D)) := by
  unfold rowDecision
  rw [indices_per_depth_eq, List.range_succ_eq_map]
  simp only [List.map_cons, List.headD_cons, List.tail_cons, List.map_map]
  have hv0 : levelSlice r (List.range' (2 ^ 0 - 1) (2 ^ 0)) =
      (List.range (2 ^ 0)).map (nodeValue r 0) := by
    have e1 : (2 : ℕ) ^ 0 - 1 = 0 := rfl
    have e2 : (2 : ℕ) ^ 0 = 1 := rfl
    rw [e1, e2]
    rfl
  have hmap : (List.range D).map
        ((fun k => List.range' (2 ^ k - 1) (2 ^ k)) ∘ Nat.succ) =
      (List.range D).map
        (fun j => List.range' (2 ^ (0 + 1 + j) - 1) (2 ^ (0 + 1 + j))) := by
    refine List.map_congr_left fun j _ => ?_
    have h : Nat.succ j = 0 + 1 + j := by omega
    simp only [Function.comp_apply, h]
  rw [hv0, hmap, loop_spec r D 0]
  norm_num

theorem rowDecision_length (D : ℕ) (r : List ℝ) :
    (rowDecision D r).length = 2 ^ (D + 1) := by
  rw [rowDecision_eq, expand_length]
  simp only [List.length_map, List.length_range]
  rw [Nat.pow_succ]
  omega

theorem rowDecision_sum (D : ℕ) (r : List ℝ) :
    (rowDecision D r).sum = 2 ^ D := by
  rw [rowDecision_eq, expand_sum]
  simp

theorem getD_bounds {r : List ℝ} (hr : ∀ d ∈ r, 0 ≤ d ∧ d ≤ 1) (i : ℕ) :
    0 ≤ r.getD i 0 ∧ r.getD i 0 ≤ 1 := by
  by_cases h : i < r.length
  · rw [List.getD_eq_getElem _ _ h]
    exact hr _ (List.getElem_mem h)
  · rw [List.getD_eq_default _ _ (by omega)]
    norm_num

theorem nodeValue_bounds {r : List ℝ} (hr : ∀ d ∈ r, 0 ≤ d ∧ d ≤ 1) :
    ∀ (k j : ℕ), 0 ≤ nodeValue r k j ∧ nodeValue r k j ≤ 1
  | 0, _ => getD_bounds hr 0
  | k + 1, j => by
    have ha := getD_bounds hr (2 ^ (k + 1) - 1 + j)
    have hprev := nodeValue_bounds hr k (j / 2)
    by_cases h : j % 2 = 1 <;>
      simp only [nodeValue, h, if_pos, if_neg, reduceIte] <;>
      exact ⟨mul_nonneg ha.1 (by linarith [hprev.1, hprev.2]),
        mul_le_one₀ ha.2 (by linarith [hprev.1, hprev.2])
          (by linarith [hprev.1, hprev.2])⟩

theorem rowDecision_bounds {r : List ℝ} (hr : ∀ d ∈ r, 0 ≤ d ∧ d ≤ 1) (D : ℕ) :
    ∀ e ∈ rowDecision D r, 0 ≤ e ∧ e ≤ 1 := by
  intro e he
  rw [rowDecision_eq] at he
  rcases expand_mem he with ⟨d, hd, hcase⟩
  rcases List.mem_map.1 hd with ⟨j, _, rfl⟩
  have hb := nodeValue_bounds hr D j
  rcases hcase with rfl | rfl
  · exact hb
  · exact ⟨by linarith [hb.2], by linarith [hb.1]⟩

theorem rowDecision_getD (D : ℕ) (r : List ℝ) (m : ℕ) (hm : m < 2 ^ (D + 1)) :
    (rowDecision D r).getD m 0 =
      if m % 2 = 0 then nodeValue r D (m / 2) else 1 - nodeValue r D (m / 2) := by
  have hpow : 2 ^ (D + 1) = 2 * 2 ^ D := by rw [Nat.pow_succ]; omega
  rw [rowDecision_eq,
    expand_getD _ m (by simp only [List.length_map, List.length_range]; omega)]
  have hm2 : m / 2 < 2 ^ D := by omega
  have hgd : ((List.range (2 ^ D)).map (nodeValue r D)).getD (m / 2) 0 =
      nodeValue r D (m / 2) := by
    rw [List.getD_eq_getElem _ 0 (by simpa using hm2)]
    simp
  rw [hgd]

/-! ### Sums of predictions -/

theorem sum_map_range_add (a b : ℕ → ℝ) : ∀ n : ℕ,
    ((List.range n).map (fun l => a l + b l)).sum =
      ((List.range n).map a).sum + ((List.range n).map b).sum
  | 0 => by simp
  | n + 1 => by
    rw [List.range_succ]
    simp only [List.map_append, List.sum_append, sum_map_range_add a b n,
      List.map_cons, List.map_nil, List.sum_cons, List.sum_nil]
    ring

theorem getD_range_map {α : Type} (l : List α) (d : α) :
    (List.range l.length).map (fun i => l.getD i d) = l := by
  refine List.ext_getElem (by simp) fun i h1 h2 => ?_
  simp only [List.getElem_map, List.getElem_range]
  exact List.getD_eq_getElem l d h2

theorem getD_range_map_of_length {α : Type} (l : List α) (d : α) (n : ℕ)
    (h : l.length = n) : (List.range n).map (fun i => l.getD i d) = l := by
  subst h
  exact getD_range_map l d

theorem softmaxRow_length (w : List ℝ) : (softmaxRow w).length = w.length := by
  simp [softmaxRow]

theorem softmaxRow_sum {w : List ℝ} (hw : w ≠ []) : (softmaxRow w).sum = 1 := by
  have hT : 0 < (w.map Real.exp).sum := by
    refine List.sum_pos _ (fun x hx => ?_) (by simpa using hw)
    rcases List.mem_map.1 hx with ⟨y, _, rfl⟩
    exact Real.exp_pos y
  unfold softmaxRow
  have hdiv : (fun x => Real.exp x / (w.map Real.exp).sum) =
      fun x => Real.exp x * ((w.map Real.exp).sum)⁻¹ :=
    funext fun x => div_eq_mul_inv _ _
  rw [hdiv, List.sum_map_mul_right]
  exact mul_inv_cancel₀ (ne_of_gt hT)

theorem rowPredictions_length (n_labels : ℕ) (weight : List (List ℝ))
    (dec : List ℝ) : (rowPredictions n_labels weight dec).length = n_labels := by
  simp [rowPredictions]

theorem rowPredictions_sum (n_labels : ℕ) : ∀ (dec : List ℝ) (weight : List (List ℝ)),
    weight.length = dec.length → (∀ row ∈ weight, row.length = n_labels) →
    1 ≤ n_labels → (rowPredictions n_labels weight dec).sum = dec.sum
  | [], [], _, _, _ => by simp [rowPredictions]
  | [], w :: ws, h, _, _ => by simp at h
  | d :: dec, [], h, _, _ => by simp at h
  | d :: dec, w :: ws, hlen, hrow, hn => by
    have hws : ws.length = dec.length := by simpa using hlen
    have IH := rowPredictions_sum n_labels dec ws hws
      (fun r hr => hrow r (List.mem_cons_of_mem _ hr)) hn
    have hwlen : w.length = n_labels := hrow w (List.mem_cons_self _ _)
    unfold rowPredictions at IH ⊢
    simp only [List.zipWith_cons_cons, List.sum_cons]
    rw [sum_map_range_add (fun l => d * (softmaxRow w).getD l 0)
      (fun l => (List.zipWith (fun d srow => d * (softmaxRow srow).getD l 0) dec ws).sum),
      IH]
    have hs : ((List.range n_labels).map (fun l => d * (softmaxRow w).getD l 0)).sum
        = d := by
      rw [List.sum_map_mul_left]
      have hln : (softmaxRow w).length = n_labels := by rw [softmaxRow_length, hwlen]
      have hmap : (List.range n_labels).map (fun l => (softmaxRow w).getD l 0) =
          softmaxRow w := by
        rw [← hln]
        exact getD_range_map _ _
      rw [hmap, softmaxRow_sum (List.length_pos.mp (by omega)), mul_one]
    rw [hs]

/-! ### The stride-2 subsampling `[:, 0::2]` -/

theorem everyOther_length {α : Type} : ∀ l : List α,
    (everyOther l).length = (l.length + 1) / 2
  | [] => by simp [everyOther]
  | [_] => by simp [everyOther]
  | a :: b :: rest => by
    simp only [everyOther, List.length_cons, everyOther_length rest]
    omega

theorem everyOther_getElem? {α : Type} : ∀ (l : List α) (i : ℕ), 2 * i < l.length →
    (everyOther l)[i]? = l[2 * i]?
  | [], i, h => by simp at h
  | [a], i, h => by
    have hi : i = 0 := by simp at h; omega
    subst hi
    simp [everyOther]
  | a :: b :: rest, 0, _ => by simp [everyOther]
  | a :: b :: rest, i + 1, h => by
    have hr : 2 * i < rest.length := by simp at h; omega
    have h2 : 2 * (i + 1) = 2 * i + 1 + 1 := by omega
    simp only [everyOther, h2, List.getElem?_cons_succ]
    exact everyOther_getElem? rest i hr

/-! ### Allocation bookkeeping of the forest constructor -/

theorem allocForest_none : ∀ (n c : ℕ),
    allocForest none n c =
      ((List.range n).map (fun i => TreeIds.mk (c + 2 * i) (c + 2 * i + 1)),
        c + 2 * n)
  | 0, c => by simp [allocForest]
  | n + 1, c => by
    simp only [allocForest, allocTree, allocForest_none n (c + 2)]
    rw [List.range_succ_eq_map, List.map_cons, List.map_map]
    refine congrArg₂ Prod.mk (congrArg₂ List.cons (by norm_num) ?_) (by omega)
    refine List.map_congr_left fun i _ => ?_
    have h1 : c + 2 + 2 * i = c + 2 * Nat.succ i := by omega
    have h2 : c + 2 + 2 * i + 1 = c + 2 * Nat.succ i + 1 := by omega
    simp only [Function.comp_apply, h1, h2]

theorem allocForest_some : ∀ (n c nid : ℕ),
    allocForest (some nid) n c =
      ((List.range n).map (fun i => TreeIds.mk nid (c + i)), c + n)
  | 0, c, nid => by simp [allocForest]
  | n + 1, c, nid => by
    simp only [allocForest, allocTree, allocForest_some n (c + 1) nid]
    rw [List.range_succ_eq_map, List.map_cons, List.map_map]
    refine congrArg₂ Prod.mk (congrArg₂ List.cons (by norm_num) ?_) (by omega)
    refine List.map_congr_left fun i _ => ?_
    have h1 : c + 1 + i = c + Nat.succ i := by omega
    simp only [Function.comp_apply, h1]

/-! ### `mapM` over `Except` -/

theorem mapM_ok {α β ε : Type} (x : β) : ∀ l : List α,
    l.mapM (fun _ => (Except.ok x : Except ε β)) = Except.ok (l.map (fun _ => x))
  | [] => rfl
  | a :: as => by
    rw [List.mapM_cons, mapM_ok x as]
    rfl

theorem mapM_error {α β ε : Type} (e : ε) (l : List α) (a : α) :
    (a :: l).mapM (fun _ => (Except.error e : Except ε β)) = Except.error e := by
  rw [List.mapM_cons]
  rfl

theorem flatten_ranges : ∀ n : ℕ,
    ((List.range n).map (fun k => List.range' (2 ^ k - 1) (2 ^ k))).flatten =
      List.range (2 ^ n - 1)
  | 0 => rfl
  | n + 1 => by
    rw [List.range_succ, List.map_append, List.flatten_append, flatten_ranges n]
    simp only [List.map_cons, List.map_nil, List.flatten_cons, List.flatten_nil,
      List.append_nil]
    have h1 : 1 ≤ 2 ^ n := Nat.one_le_two_pow
    have h2 : 2 ^ (n + 1) = 2 ^ n * 2 := Nat.pow_succ 2 n
    rw [List.range_eq_range', List.range_eq_range']
    have h := List.range'_append 0 (2 ^ n - 1) (2 ^ n) 1
    simp only [one_mul, Nat.zero_add] at h
    rw [h]
    congr 1
    omega

/-! ## Claim theorems -/

/-- C9: for every depth D > 0, `indices_per_depth` computed at `NeuralTree`
construction consists of D+1 consecutive index ranges, level k being the
2^k indices starting at 2^k - 1, with level 0 exactly the root index `[0]`;
together they cover the flat decision index set {0, ..., 2^(D+1) - 2} in
order and are pairwise disjoint. -/
theorem C9_indices_partition (D : ℕ) (hD : 0 < D) :
    (indices_per_depth D).length = D + 1 ∧
    (∀ k, k < D + 1 →
      (indices_per_depth D).getD k [] = List.range' (2 ^ k - 1) (2 ^ k)) ∧
    (indices_per_depth D).headD [] = [0] ∧
    (indices_per_depth D).flatten = List.range (2 ^ (D + 1) - 1) ∧
    List.Pairwise (fun l1 l2 => ∀ a ∈ l1, a ∉ l2) (indices_per_depth D) := by
  refine ⟨?_, ?_, ?_, ?_, ?_⟩
  · rw [indices_per_depth_eq]
    simp
  · intro k hk
    rw [indices_per_depth_eq, List.getD_eq_getElem _ _ (by simpa using hk)]
    simp
  · rw [indices_per_depth_eq, List.range_succ_eq_map]
    simp only [List.map_cons, List.headD_cons]
    rfl
  · rw [indices_per_depth_eq, flatten_ranges]
  · rw [indices_per_depth_eq]
    refine List.pairwise_map.2 ((List.pairwise_lt_range (D + 1)).imp ?_)
    intro i j hij a hai haj
    rw [List.mem_range'] at hai haj
    rcases hai with ⟨x, hx, rfl⟩
    rcases haj with ⟨y, hy, hEq⟩
    have hle : 2 ^ (i + 1) ≤ 2 ^ j := Nat.pow_le_pow_right (by norm_num) hij
    have h2i : 2 ^ (i + 1) = 2 ^ i * 2 := Nat.pow_succ 2 i
    have h1i : 1 ≤ 2 ^ i := Nat.one_le_two_pow
    have h1j : 1 ≤ 2 ^ j := Nat.one_le_two_pow
    omega

/-- Witness for C9 at depth 2. -/
theorem C9_indices_partition_witness : 0 < 2 ∧
    ((indices_per_depth 2).length = 2 + 1 ∧
     (∀ k, k < 2 + 1 →
       (indices_per_depth 2).getD k [] = List.range' (2 ^ k - 1) (2 ^ k)) ∧
     (indices_per_depth 2).headD [] = [0] ∧
     (indices_per_depth 2).flatten = List.range (2 ^ (2 + 1) - 1) ∧
     List.Pairwise (fun l1 l2 => ∀ a ∈ l1, a ∉ l2) (indices_per_depth 2)) :=
  ⟨by decide, C9_indices_partition 2 (by decide)⟩

/-- C7: constructing a `NeuralTree` with depth ≤ 0 fails with the descriptive
assertion error of the depth check (and hence so does a
`NeuralDecisionForest` with at least one tree), while every depth > 0 passes
the check and construction completes. -/
theorem C7_depth_validation (L : ℕ) (d : ℤ) (n : ℕ) :
    (d ≤ 0 → NeuralTree.init L d =
      Except.error (TMError.assertionError "NeuralTree :: depth must be > 0")) ∧
    (0 < d → NeuralTree.init L d = Except.ok ⟨L, d, (none, some L)⟩) ∧
    (1 ≤ n → d ≤ 0 → NeuralDecisionForest.init L n d =
      Except.error (TMError.assertionError "NeuralTree :: depth must be > 0")) := by
  refine ⟨fun hd => ?_, fun hd => ?_, fun hn hd => ?_⟩
  · simp [NeuralTree.init, not_lt.2 hd]
  · simp [NeuralTree.init, hd]
  · obtain ⟨m, rfl⟩ : ∃ m, n = m + 1 := ⟨n - 1, by omega⟩
    have htree : NeuralTree.init L d =
        Except.error (TMError.assertionError "NeuralTree :: depth must be > 0") := by
      simp [NeuralTree.init, not_lt.2 hd]
    have hmapM : ((List.range (m + 1)).mapM
          (fun _ => NeuralTree.init L d) : Except TMError _) =
        Except.error (TMError.assertionError "NeuralTree :: depth must be > 0") := by
      rw [List.range_succ_eq_map]
      simp only [htree]
      exact mapM_error _ _ _
    unfold NeuralDecisionForest.init
    rw [hmapM]

/-- Witness for C7 at depth -1 (fails), depth 2 (passes), 2 trees. -/
theorem C7_depth_validation_witness :
    (NeuralTree.init 3 (-1) =
      Except.error (TMError.assertionError "NeuralTree :: depth must be > 0")) ∧
    (NeuralTree.init 3 2 = Except.ok ⟨3, 2, (none, some 3)⟩) ∧
    (NeuralDecisionForest.init 3 2 (-1) =
      Except.error (TMError.assertionError "NeuralTree :: depth must be > 0")) :=
  ⟨(C7_depth_validation 3 (-1) 2).1 (by norm_num),
   (C7_depth_validation 3 2 2).2.1 (by norm_num),
   (C7_depth_validation 3 (-1) 2).2.2 (by norm_num) (by norm_num)⟩

/-- C10: constructing a `NeuralDecisionForest` with `n_trees = 0` fails with
the out-of-bounds indexing error coming from `self.trees[0]` (not with a
descriptive configuration error), whereas with `n_trees ≥ 1` (and a valid
depth) the access succeeds and construction completes. -/
theorem C10_zero_trees (L : ℕ) (d : ℤ) (n : ℕ) :
    (NeuralDecisionForest.init L 0 d = Except.error TMError.indexError) ∧
    (1 ≤ n → 0 < d →
      NeuralDecisionForest.init L n d =
        Except.ok ⟨List.replicate n ⟨L, d, (none, some L)⟩, (none, some L)⟩) := by
  constructor
  · rfl
  · intro hn hd
    have htree : NeuralTree.init L d = Except.ok ⟨L, d, (none, some L)⟩ := by
      simp [NeuralTree.init, hd]
    have hmapM : ((List.range n).mapM
          (fun _ => NeuralTree.init L d) : Except TMError _) =
        Except.ok ((List.range n).map (fun _ => (⟨L, d, (none, some L)⟩ :
          NeuralTreeHandle))) := by
      simp only [htree]
      exact mapM_ok _ _
    have hrepl : (List.range n).map (fun _ => (⟨L, d, (none, some L)⟩ :
        NeuralTreeHandle)) = List.replicate n ⟨L, d, (none, some L)⟩ := by
      simp [List.map_const, Function.const]
    unfold NeuralDecisionForest.init
    rw [hmapM, hrepl]
    obtain ⟨m, rfl⟩ : ∃ m, n = m + 1 := ⟨n - 1, by omega⟩
    rfl

/-- Witness for C10: zero trees versus two trees at depth 2. -/
theorem C10_zero_trees_witness :
    (NeuralDecisionForest.init 5 0 2 = Except.error TMError.indexError) ∧
    (NeuralDecisionForest.init 5 2 2 =
      Except.ok ⟨List.replicate 2 ⟨5, 2, (none, some 5)⟩, (none, some 5)⟩) :=
  ⟨(C10_zero_trees 5 2 2).1,
   (C10_zero_trees 5 2 2).2 (by norm_num) (by norm_num)⟩

/-! ### Concrete evaluations used by counterexamples -/

theorem eval_half_rowDecision :
    rowDecision 1 [(1 : ℝ) / 2, 1 / 2, 1 / 2] = [1 / 4, 3 / 4, 1 / 4, 3 / 4] := by
  have hidx : indices_per_depth 1 = [[0], [1, 2]] := by decide
  unfold rowDecision
  rw [hidx]
  simp only [List.tail_cons, List.headD_cons, List.foldl_cons, List.foldl_nil,
    decisionStep, levelSlice, List.map_cons, List.map_nil, List.getD_cons_zero,
    List.getD_cons_succ, expand, List.flatMap_cons, List.flatMap_nil,
    List.zipWith_cons_cons, List.zipWith_nil_right, List.append_nil]
  norm_num

theorem eval_ones_rowDecision :
    rowDecision 1 [(1 : ℝ), 1, 1] = [1, 0, 0, 1] := by
  have hidx : indices_per_depth 1 = [[0], [1, 2]] := by decide
  unfold rowDecision
  rw [hidx]
  simp only [List.tail_cons, List.headD_cons, List.foldl_cons, List.foldl_nil,
    decisionStep, levelSlice, List.map_cons, List.map_nil, List.getD_cons_zero,
    List.getD_cons_succ, expand, List.flatMap_cons, List.flatMap_nil,
    List.zipWith_cons_cons, List.zipWith_nil_right, List.append_nil]
  norm_num

theorem eval_half_rowPredictions :
    rowPredictions 1 [[0], [0], [0], [0]] [(1 : ℝ) / 4, 3 / 4, 1 / 4, 3 / 4] =
      [2] := by
  unfold rowPredictions softmaxRow
  simp only [List.range_succ, List.range_zero, List.map_nil, List.map_cons,
    List.nil_append, List.cons_append, List.zipWith_cons_cons,
    List.zipWith_nil_right, List.sum_cons, List.sum_nil, Real.exp_zero,
    List.getD_cons_zero]
  norm_num

/-- C1 (corrected): for depth D > 0 and decision values in [0,1], the first
output of `NeuralTree.forward` has one row per batch row, each row of length
2^(D+1) with entries in [0,1]; each row sums to 2^D (not 1 as claimed). -/
theorem C1_decision_rows (D n_labels : ℕ) (hD : 0 < D)
    (net : List (List ℝ) → List (List ℝ)) (weight : List (List ℝ))
    (batch : List (List ℝ))
    (hnet01 : ∀ row ∈ net batch, ∀ d ∈ row, 0 ≤ d ∧ d ≤ 1)
    (hB : (net batch).length = batch.length) :
    (treeForward D n_labels net weight batch).1.length = batch.length ∧
    ∀ row ∈ (treeForward D n_labels net weight batch).1,
      row.length = 2 ^ (D + 1) ∧ (∀ e ∈ row, 0 ≤ e ∧ e ≤ 1) ∧
      row.sum = 2 ^ D := by
  constructor
  · simp [treeForward, hB]
  · intro row hrow
    simp only [treeForward] at hrow
    rcases List.mem_map.1 hrow with ⟨resp, hresp, rfl⟩
    exact ⟨rowDecision_length D resp,
      rowDecision_bounds (hnet01 resp hresp) D, rowDecision_sum D resp⟩

/-- Witness for C1 at depth 1, a one-row batch, decisions all 1/3. -/
theorem C1_decision_rows_witness : 0 < 1 ∧
    ((treeForward 1 1 (fun rows => rows.map (fun _ => [(1 : ℝ) / 3, 1 / 3, 1 / 3]))
        [] [[5]]).1.length = ([[5]] : List (List ℝ)).length ∧
     ∀ row ∈ (treeForward 1 1
        (fun rows => rows.map (fun _ => [(1 : ℝ) / 3, 1 / 3, 1 / 3])) [] [[5]]).1,
       row.length = 2 ^ (1 + 1) ∧ (∀ e ∈ row, 0 ≤ e ∧ e ≤ 1) ∧
       row.sum = 2 ^ 1) := by
  refine ⟨by norm_num, C1_decision_rows 1 1 (by norm_num) _ [] [[5]] ?_ rfl⟩
  intro row hrow
  simp only [List.map_cons, List.map_nil, List.mem_singleton] at hrow
  subst hrow
  intro d hd
  simp only [List.mem_cons, List.not_mem_nil, or_false] at hd
  rcases hd with rfl | rfl | rfl <;> norm_num

/-- C1 counterexample: at depth 1 with all decision values 1/2 (which lie in
[0,1]), the single row of the first output of `NeuralTree.forward` is
[1/4, 3/4, 1/4, 3/4], whose sum is 2, not 1. -/
theorem C1_counterexample :
    (0 ≤ (1 : ℝ) / 2 ∧ (1 : ℝ) / 2 ≤ 1) ∧
    (treeForward 1 1 (fun rows => rows.map (fun _ => [(1 : ℝ) / 2, 1 / 2, 1 / 2]))
        [[0], [0], [0], [0]] [[0]]).1 = [[1 / 4, 3 / 4, 1 / 4, 3 / 4]] ∧
    ((treeForward 1 1 (fun rows => rows.map (fun _ => [(1 : ℝ) / 2, 1 / 2, 1 / 2]))
        [[0], [0], [0], [0]] [[0]]).1.getD 0 []).sum ≠ 1 := by
  have h1 : (treeForward 1 1
      (fun rows => rows.map (fun _ => [(1 : ℝ) / 2, 1 / 2, 1 / 2]))
      [[0], [0], [0], [0]] [[0]]).1 = [[1 / 4, 3 / 4, 1 / 4, 3 / 4]] := by
    simp only [treeForward, List.map_cons, List.map_nil, eval_half_rowDecision]
  refine ⟨by norm_num, h1, ?_⟩
  rw [h1]
  norm_num

/-- C2 (corrected): the entry of the decision row at index m is not a plain
product of per-node decisions along the root-to-leaf path; it is given by the
alternating accumulation `nodeValue` (previous value or its complement by the
slot's parity, times the current level's decision), with odd entries being
complements of the accumulated value. -/
theorem C2_entry_characterisation (D : ℕ) (r : List ℝ) (m : ℕ)
    (hm : m < 2 ^ (D + 1)) :
    (rowDecision D r).getD m 0 =
      if m % 2 = 0 then nodeValue r D (m / 2)
      else 1 - nodeValue r D (m / 2) :=
  rowDecision_getD D r m hm

/-- Witness for C2 at depth 1, entry 2. -/
theorem C2_entry_characterisation_witness : 2 < 2 ^ (1 + 1) ∧
    (rowDecision 1 [(1 : ℝ) / 2, 1 / 3, 1 / 5]).getD 2 0 =
      (if 2 % 2 = 0 then nodeValue [(1 : ℝ) / 2, 1 / 3, 1 / 5] 1 (2 / 2)
       else 1 - nodeValue [(1 : ℝ) / 2, 1 / 3, 1 / 5] 1 (2 / 2)) :=
  ⟨by norm_num,
   C2_entry_characterisation 1 [(1 : ℝ) / 2, 1 / 3, 1 / 5] 2 (by norm_num)⟩

/-- C2 counterexample: at depth 1 with all three decision values equal to 1/2,
every root-to-leaf path passes two decision nodes, so every possible product
of per-node decision values or complements along a path equals 1/4; yet the
leaf-distribution entry at index 1 is 3/4. -/
theorem C2_counterexample :
    (rowDecision 1 [(1 : ℝ) / 2, 1 / 2, 1 / 2]).getD 1 0 = 3 / 4 ∧
    ((1 : ℝ) / 2) * (1 / 2) = 1 / 4 ∧
    ((1 : ℝ) / 2) * (1 - 1 / 2) = 1 / 4 ∧
    (1 - (1 : ℝ) / 2) * (1 / 2) = 1 / 4 ∧
    (1 - (1 : ℝ) / 2) * (1 - 1 / 2) = 1 / 4 ∧
    (3 : ℝ) / 4 ≠ 1 / 4 := by
  rw [eval_half_rowDecision]
  norm_num

/-- C8: for fixed parameters and a row-wise scoring sub-network, running
`NeuralTree.forward` on the two-row batch [a, b] returns exactly the rows
produced by running it on [a] and on [b] separately. -/
theorem C8_batch_invariance (depth n_labels : ℕ)
    (net : List (List ℝ) → List (List ℝ)) (weight : List (List ℝ))
    (rowNet : List ℝ → List ℝ) (hnet : ∀ rows, net rows = rows.map rowNet)
    (a b : List ℝ) :
    (treeForward depth n_labels net weight [a, b]).1 =
      (treeForward depth n_labels net weight [a]).1 ++
        (treeForward depth n_labels net weight [b]).1 ∧
    (treeForward depth n_labels net weight [a, b]).2 =
      (treeForward depth n_labels net weight [a]).2 ++
        (treeForward depth n_labels net weight [b]).2 := by
  constructor <;> simp [treeForward, hnet]

/-- Witness for C8 with the identity scoring sub-network. -/
theorem C8_batch_invariance_witness :
    (treeForward 1 1 (fun rows => rows.map (fun r => r)) [] [[0], [1]]).1 =
      (treeForward 1 1 (fun rows => rows.map (fun r => r)) [] [[0]]).1 ++
        (treeForward 1 1 (fun rows => rows.map (fun r => r)) [] [[1]]).1 ∧
    (treeForward 1 1 (fun rows => rows.map (fun r => r)) [] [[0], [1]]).2 =
      (treeForward 1 1 (fun rows => rows.map (fun r => r)) [] [[0]]).2 ++
        (treeForward 1 1 (fun rows => rows.map (fun r => r)) [] [[1]]).2 :=
  C8_batch_invariance 1 1 _ [] (fun r => r) (fun _ => rfl) [0] [1]

theorem sum_map_range_sum {α : Type} (P : α → ℕ → ℝ) (n : ℕ) : ∀ ts : List α,
    ((List.range n).map (fun l => (ts.map (fun t => P t l)).sum)).sum =
      (ts.map (fun t => ((List.range n).map (fun l => P t l)).sum)).sum
  | [] => by simp
  | t :: ts => by
    simp only [List.map_cons, List.sum_cons]
    rw [sum_map_range_add (fun l => P t l)
      (fun l => (ts.map (fun t => P t l)).sum) n, sum_map_range_sum P n ts]

theorem mean_row_sum {α : Type} (ts : List α) (F : α → ℕ → ℝ) (n : ℕ) (c : ℝ)
    (hts : 1 ≤ ts.length)
    (hF : ∀ t ∈ ts, ((List.range n).map (fun l => F t l)).sum = c) :
    ((List.range n).map
      (fun l => (ts.map (fun t => F t l)).sum / (ts.length : ℝ))).sum = c := by
  have hK : ((ts.length : ℝ)) ≠ 0 := Nat.cast_ne_zero.2 (by omega)
  calc ((List.range n).map
        (fun l => (ts.map (fun t => F t l)).sum / (ts.length : ℝ))).sum
      = ((List.range n).map
        (fun l => (ts.map (fun t => F t l)).sum * ((ts.length : ℝ))⁻¹)).sum :=
        congrArg List.sum (List.map_congr_left fun l _ => div_eq_mul_inv _ _)
    _ = ((List.range n).map (fun l => (ts.map (fun t => F t l)).sum)).sum *
        ((ts.length : ℝ))⁻¹ := List.sum_map_mul_right _ _ _
    _ = (ts.map (fun t => ((List.range n).map (fun l => F t l)).sum)).sum *
        ((ts.length : ℝ))⁻¹ := by rw [sum_map_range_sum F n ts]
    _ = (ts.map (fun _ => c)).sum * ((ts.length : ℝ))⁻¹ := by
        rw [List.map_congr_left hF]
    _ = ((ts.length : ℝ) * c) * ((ts.length : ℝ))⁻¹ := by
        have hconst : ts.map (fun _ => c) = List.replicate ts.length c := by
          simp [List.map_const, Function.const]
        rw [hconst, List.sum_replicate, nsmul_eq_mul]
    _ = c := by rw [mul_comm, ← mul_assoc, inv_mul_cancel₀ hK, one_mul]

/-- C3 (corrected): for a leaf class-distribution weight of shape
(n_leafs, n_labels), each row of the per-tree class-probability output of
`NeuralTree.forward` sums to 2^depth (not 1 as claimed), and so does each
row of the over-trees mean computed before the elementwise logarithm in
`NeuralDecisionForest.forward`. -/
theorem C3_row_sums (depth n_labels : ℕ) (trees : List TreeParams)
    (batch : List (List ℝ)) (hlab : 1 ≤ n_labels)
    (hw : ∀ t ∈ trees, t.2.length = 2 ^ (depth + 1) ∧
      ∀ row ∈ t.2, row.length = n_labels)
    (htrees : 1 ≤ trees.length)
    (hB : ∀ t ∈ trees, (t.1 batch).length = batch.length) :
    (∀ t ∈ trees, ∀ row ∈ (treeForward depth n_labels t.1 t.2 batch).2,
      row.sum = 2 ^ depth) ∧
    (∀ row ∈ forestPreLog depth n_labels trees batch,
      row.sum = 2 ^ depth) := by
  have tree_sum : ∀ t ∈ trees, ∀ resp : List ℝ,
      (rowPredictions n_labels t.2 (rowDecision depth resp)).sum = 2 ^ depth := by
    intro t ht resp
    rw [rowPredictions_sum n_labels (rowDecision depth resp) t.2
      (by rw [(hw t ht).1, rowDecision_length]) (hw t ht).2 hlab,
      rowDecision_sum]
  constructor
  · intro t ht row hrow
    simp only [treeForward, List.map_map] at hrow
    rcases List.mem_map.1 hrow with ⟨resp, _, rfl⟩
    exact tree_sum t ht resp
  · intro row hrow
    unfold forestPreLog at hrow
    rcases List.mem_map.1 hrow with ⟨b, hbmem, rfl⟩
    have hb : b < batch.length := List.mem_range.1 hbmem
    have hPsum : ∀ t ∈ trees,
        ((List.range n_labels).map (fun l =>
          (((treeForward depth n_labels t.1 t.2 batch).2).getD b []).getD l 0)).sum
          = 2 ^ depth := by
      intro t ht
      have hlen2 : (treeForward depth n_labels t.1 t.2 batch).2.length =
          batch.length := by
        simp [treeForward, hB t ht]
      have hrowb : ((treeForward depth n_labels t.1 t.2 batch).2).getD b [] =
          rowPredictions n_labels t.2
            (rowDecision depth ((t.1 batch).getD b [])) := by
        rw [List.getD_eq_getElem _ _ (by omega)]
        simp only [treeForward, List.map_map, List.getElem_map]
        rw [List.getD_eq_getElem (t.1 batch) []
          (by rw [hB t ht]; exact hb)]
        rfl
      rw [hrowb]
      have hlenR : (rowPredictions n_labels t.2
          (rowDecision depth ((t.1 batch).getD b []))).length = n_labels :=
        rowPredictions_length _ _ _
      rw [getD_range_map_of_length _ 0 n_labels hlenR]
      exact tree_sum t ht _
    exact mean_row_sum trees
      (fun t l =>
        (((treeForward depth n_labels t.1 t.2 batch).2).getD b []).getD l 0)
      n_labels (2 ^ depth) htrees hPsum

/-- Witness for C3: one tree, depth 1, one label, a 4 × 1 weight. -/
theorem C3_row_sums_witness : 1 ≤ 1 ∧
    ((∀ t ∈ ([((fun rows : List (List ℝ) => rows.map (fun _ => [(1 : ℝ) / 3, 1 / 3, 1 / 3])),
          [[0], [0], [0], [0]])] : List TreeParams),
       ∀ row ∈ (treeForward 1 1 t.1 t.2 [[7]]).2, row.sum = 2 ^ 1) ∧
     (∀ row ∈ forestPreLog 1 1
        [((fun rows : List (List ℝ) => rows.map (fun _ => [(1 : ℝ) / 3, 1 / 3, 1 / 3])),
          [[0], [0], [0], [0]])] [[7]], row.sum = 2 ^ 1)) := by
  refine ⟨le_refl 1, C3_row_sums 1 1 _ [[7]] (le_refl 1) ?_ (by norm_num) ?_⟩
  · intro t ht
    simp only [List.mem_singleton] at ht
    subst ht
    refine ⟨by norm_num, ?_⟩
    intro row hrow
    simp only [List.mem_cons, List.not_mem_nil, or_false] at hrow
    rcases hrow with rfl | rfl | rfl | rfl <;> rfl
  · intro t ht
    simp only [List.mem_singleton] at ht
    subst ht
    rfl

/-- C3 counterexample: at depth 1 with all decision values 1/2 and a 4 × 1
weight, the single class-probability row of the tree is [2] and the averaged
pre-logarithm row of a one-tree forest is [2]; both sum to 2, not 1. -/
theorem C3_counterexample :
    (treeForward 1 1 (fun rows => rows.map (fun _ => [(1 : ℝ) / 2, 1 / 2, 1 / 2]))
      [[0], [0], [0], [0]] [[0]]).2 = [[2]] ∧
    forestPreLog 1 1
      [((fun rows => rows.map (fun _ => [(1 : ℝ) / 2, 1 / 2, 1 / 2])),
        [[0], [0], [0], [0]])] [[0]] = [[2]] ∧
    (2 : ℝ) ≠ 1 := by
  have h2 : (treeForward 1 1
      (fun rows => rows.map (fun _ => [(1 : ℝ) / 2, 1 / 2, 1 / 2]))
      [[0], [0], [0], [0]] [[0]]).2 = [[2]] := by
    simp only [treeForward, List.map_cons, List.map_nil, eval_half_rowDecision,
      eval_half_rowPredictions]
  refine ⟨h2, ?_, by norm_num⟩
  unfold forestPreLog
  simp only [List.length_cons, List.length_nil, List.range_succ, List.range_zero,
    List.map_nil, List.map_cons, List.nil_append, List.cons_append, h2,
    List.getD_cons_zero, List.sum_cons, List.sum_nil, Nat.cast_one]
  norm_num

/-- C4: `NeuralDecisionForest.forward` returns, first, the per-tree decision
rows concatenated and subsampled at stride 2 from index 0 (entry i is entry
2i of the concatenation), and second, the elementwise natural logarithm of
the over-trees mean of the per-tree class-probability rows, of shape
(batch, n_labels). -/
theorem C4_forest_forward (depth n_labels : ℕ) (trees : List TreeParams)
    (batch : List (List ℝ)) :
    (forestForward depth n_labels trees batch).1.length = batch.length ∧
    (forestForward depth n_labels trees batch).2.length = batch.length ∧
    ∀ b, b < batch.length →
      ((forestForward depth n_labels trees batch).1.getD b []).length =
        ((((trees.map (fun t =>
          ((treeForward depth n_labels t.1 t.2 batch).1).getD b [])).flatten).length
            + 1) / 2) ∧
      (∀ i, 2 * i < ((trees.map (fun t =>
          ((treeForward depth n_labels t.1 t.2 batch).1).getD b [])).flatten).length →
        ((forestForward depth n_labels trees batch).1.getD b [])[i]? =
          ((trees.map (fun t =>
            ((treeForward depth n_labels t.1 t.2 batch).1).getD b [])).flatten)[2 * i]?) ∧
      (forestForward depth n_labels trees batch).2.getD b [] =
        (List.range n_labels).map (fun l =>
          Real.log ((trees.map (fun t =>
            (((treeForward depth n_labels t.1 t.2 batch).2).getD b []).getD l 0)).sum
              / (trees.length : ℝ))) ∧
      ((forestForward depth n_labels trees batch).2.getD b []).length =
        n_labels := by
  have hFF : forestForward depth n_labels trees batch =
      (((List.range batch.length).map (fun b => (trees.map (fun t =>
          ((treeForward depth n_labels t.1 t.2 batch).1).getD b [])).flatten)).map
        everyOther,
       (forestPreLog depth n_labels trees batch).map
        (fun row => row.map Real.log)) := rfl
  refine ⟨by rw [hFF]; simp, by rw [hFF]; simp [forestPreLog], fun b hb => ?_⟩
  have h1 : (forestForward depth n_labels trees batch).1.getD b [] =
      everyOther ((trees.map (fun t =>
        ((treeForward depth n_labels t.1 t.2 batch).1).getD b [])).flatten) := by
    rw [hFF]
    rw [List.getD_eq_getElem _ _ (by simpa using hb)]
    simp
  have h2 : (forestForward depth n_labels trees batch).2.getD b [] =
      (List.range n_labels).map (fun l =>
        Real.log ((trees.map (fun t =>
          (((treeForward depth n_labels t.1 t.2 batch).2).getD b []).getD l 0)).sum
            / (trees.length : ℝ))) := by
    rw [hFF]
    show ((forestPreLog depth n_labels trees batch).map
      (fun row => row.map Real.log)).getD b [] = _
    rw [List.getD_eq_getElem _ _ (by simp [forestPreLog]; omega)]
    simp only [List.getElem_map, forestPreLog, List.getElem_range, List.map_map]
    simp only [Function.comp_apply, List.map_map]
    rfl
  refine ⟨by rw [h1, everyOther_length], fun i hi => ?_, h2, by rw [h2]; simp⟩
  rw [h1]
  exact everyOther_getElem? _ i hi

/-- Witness for C4: a one-tree forest on a one-row batch. -/
theorem C4_forest_forward_witness :
    (forestForward 1 1
      [((fun rows => rows.map (fun _ => [(1 : ℝ) / 2, 1 / 2, 1 / 2])),
        [[0], [0], [0], [0]])] [[0]]).1.length = ([[0]] : List (List ℝ)).length ∧
    (forestForward 1 1
      [((fun rows => rows.map (fun _ => [(1 : ℝ) / 2, 1 / 2, 1 / 2])),
        [[0], [0], [0], [0]])] [[0]]).2.length = ([[0]] : List (List ℝ)).length ∧
    ((forestForward 1 1
      [((fun rows => rows.map (fun _ => [(1 : ℝ) / 2, 1 / 2, 1 / 2])),
        [[0], [0], [0], [0]])] [[0]]).2.getD 0 []).length = 1 := by
  have h := C4_forest_forward 1 1
    [((fun rows => rows.map (fun _ => [(1 : ℝ) / 2, 1 / 2, 1 / 2])),
      [[0], [0], [0], [0]])] [[0]]
  exact ⟨h.1, h.2.1, (h.2.2 0 (by norm_num)).2.2.2⟩

/-- C5: a forest of K ≥ 1 trees with identical parameters produces the same
averaged log class-probability output as the one-tree forest holding those
parameters (log of a mean of K identical vectors is the log of that
vector). -/
theorem C5_identical_trees (depth n_labels K : ℕ) (hK : 1 ≤ K)
    (net : List (List ℝ) → List (List ℝ)) (weight : List (List ℝ))
    (batch : List (List ℝ)) :
    (forestForward depth n_labels (List.replicate K (net, weight)) batch).2 =
      (forestForward depth n_labels [(net, weight)] batch).2 := by
  have hKne : ((K : ℝ)) ≠ 0 := Nat.cast_ne_zero.2 (by omega)
  have hpre : forestPreLog depth n_labels (List.replicate K (net, weight)) batch =
      forestPreLog depth n_labels [(net, weight)] batch := by
    unfold forestPreLog
    refine List.map_congr_left fun b _ => ?_
    refine List.map_congr_left fun l _ => ?_
    simp only [List.map_replicate, List.sum_replicate, List.length_replicate,
      nsmul_eq_mul, List.map_cons, List.map_nil, List.sum_cons, List.sum_nil,
      List.length_cons, List.length_nil, zero_add, Nat.cast_one]
    rw [add_zero, div_one]
    exact mul_div_cancel_left₀ _ hKne
  calc (forestForward depth n_labels (List.replicate K (net, weight)) batch).2
      = (forestPreLog depth n_labels (List.replicate K (net, weight)) batch).map
          (fun row => row.map Real.log) := rfl
    _ = (forestPreLog depth n_labels [(net, weight)] batch).map
          (fun row => row.map Real.log) := by rw [hpre]
    _ = (forestForward depth n_labels [(net, weight)] batch).2 := rfl

/-- Witness for C5 with K = 2. -/
theorem C5_identical_trees_witness : 1 ≤ 2 ∧
    (forestForward 1 1 (List.replicate 2
        ((fun rows => rows.map (fun _ => [(1 : ℝ) / 2, 1 / 2, 1 / 2])),
         [[0], [0], [0], [0]])) [[0]]).2 =
      (forestForward 1 1
        [((fun rows => rows.map (fun _ => [(1 : ℝ) / 2, 1 / 2, 1 / 2])),
          [[0], [0], [0], [0]])] [[0]]).2 :=
  ⟨by norm_num, C5_identical_trees 1 1 2 (by norm_num) _ _ _⟩

/-- C6 (corrected): when no custom scoring sub-network is supplied
(`network=None`), the trees of a `NeuralDecisionForest` share no parameter
objects — their scoring sub-network and leaf-weight ids are pairwise
distinct, so mutating one tree's parameters never changes another tree's
output; but when a caller-supplied custom scoring sub-network is used, every
tree stores that same object, so the scoring parameters are shared between
distinct trees (leaf weights remain per-tree). -/
theorem C6_tree_independence (n c i j : ℕ) (hi : i < n) (hj : j < n)
    (hij : i ≠ j) :
    (∀ T, T = (allocForest none n c).1 →
      ((T.getD i ⟨0, 0⟩).netId ≠ (T.getD j ⟨0, 0⟩).netId ∧
       (T.getD i ⟨0, 0⟩).weightId ≠ (T.getD j ⟨0, 0⟩).weightId ∧
       (T.getD i ⟨0, 0⟩).netId ≠ (T.getD j ⟨0, 0⟩).weightId ∧
       (∀ (env : ℕ → List ℝ → List ℝ) (wenv : ℕ → List (List ℝ))
          (g : List ℝ → List ℝ) (depth n_labels : ℕ) (batch : List (List ℝ)),
         treeOutputOf (Function.update env (T.getD i ⟨0, 0⟩).netId g) wenv
             depth n_labels (T.getD j ⟨0, 0⟩) batch =
           treeOutputOf env wenv depth n_labels (T.getD j ⟨0, 0⟩) batch) ∧
       (∀ (env : ℕ → List ℝ → List ℝ) (wenv : ℕ → List (List ℝ))
          (gw : List (List ℝ)) (depth n_labels : ℕ) (batch : List (List ℝ)),
         treeOutputOf env (Function.update wenv (T.getD i ⟨0, 0⟩).weightId gw)
             depth n_labels (T.getD j ⟨0, 0⟩) batch =
           treeOutputOf env wenv depth n_labels (T.getD j ⟨0, 0⟩) batch))) ∧
    (∀ nid : ℕ, ((allocForest (some nid) n c).1.getD i ⟨0, 0⟩).netId =
      ((allocForest (some nid) n c).1.getD j ⟨0, 0⟩).netId) := by
  have hgetD : ∀ k, k < n →
      (allocForest none n c).1.getD k ⟨0, 0⟩ = ⟨c + 2 * k, c + 2 * k + 1⟩ := by
    intro k hk
    rw [allocForest_none, List.getD_eq_getElem _ _ (by simpa using hk)]
    simp
  constructor
  · rintro T rfl
    rw [hgetD i hi, hgetD j hj]
    refine ⟨show c + 2 * i ≠ c + 2 * j by omega,
      show c + 2 * i + 1 ≠ c + 2 * j + 1 by omega,
      show c + 2 * i ≠ c + 2 * j + 1 by omega, ?_, ?_⟩
    · intro env wenv g depth n_labels batch
      have hne : (TreeIds.mk (c + 2 * j) (c + 2 * j + 1)).netId ≠
          (TreeIds.mk (c + 2 * i) (c + 2 * i + 1)).netId := by
        show c + 2 * j ≠ c + 2 * i
        omega
      simp only [treeOutputOf, Function.update_noteq hne]
    · intro env wenv gw depth n_labels batch
      have hne : (TreeIds.mk (c + 2 * j) (c + 2 * j + 1)).weightId ≠
          (TreeIds.mk (c + 2 * i) (c + 2 * i + 1)).weightId := by
        show c + 2 * j + 1 ≠ c + 2 * i + 1
        omega
      simp only [treeOutputOf, Function.update_noteq hne]
  · intro nid
    have hsome : ∀ k, k < n →
        (allocForest (some nid) n c).1.getD k ⟨0, 0⟩ = ⟨nid, c + k⟩ := by
      intro k hk
      rw [allocForest_some, List.getD_eq_getElem _ _ (by simpa using hk)]
      simp
    rw [hsome i hi, hsome j hj]

/-- Witness for C6 with two trees. -/
theorem C6_tree_independence_witness :
    (∀ T, T = (allocForest none 2 0).1 →
      ((T.getD 0 ⟨0, 0⟩).netId ≠ (T.getD 1 ⟨0, 0⟩).netId ∧
       (T.getD 0 ⟨0, 0⟩).weightId ≠ (T.getD 1 ⟨0, 0⟩).weightId ∧
       (T.getD 0 ⟨0, 0⟩).netId ≠ (T.getD 1 ⟨0, 0⟩).weightId ∧
       (∀ (env : ℕ → List ℝ → List ℝ) (wenv : ℕ → List (List ℝ))
          (g : List ℝ → List ℝ) (depth n_labels : ℕ) (batch : List (List ℝ)),
         treeOutputOf (Function.update env (T.getD 0 ⟨0, 0⟩).netId g) wenv
             depth n_labels (T.getD 1 ⟨0, 0⟩) batch =
           treeOutputOf env wenv depth n_labels (T.getD 1 ⟨0, 0⟩) batch) ∧
       (∀ (env : ℕ → List ℝ → List ℝ) (wenv : ℕ → List (List ℝ))
          (gw : List (List ℝ)) (depth n_labels : ℕ) (batch : List (List ℝ)),
         treeOutputOf env (Function.update wenv (T.getD 0 ⟨0, 0⟩).weightId gw)
             depth n_labels (T.getD 1 ⟨0, 0⟩) batch =
           treeOutputOf env wenv depth n_labels (T.getD 1 ⟨0, 0⟩) batch))) ∧
    (∀ nid : ℕ, ((allocForest (some nid) 2 0).1.getD 0 ⟨0, 0⟩).netId =
      ((allocForest (some nid) 2 0).1.getD 1 ⟨0, 0⟩).netId) :=
  C6_tree_independence 2 0 0 1 (by norm_num) (by norm_num) (by norm_num)

/-- C6 counterexample: with a caller-supplied custom scoring sub-network
(object id 0), the two distinct trees of the forest store the same scoring
sub-network id, and mutating that shared object (updating the environment at
tree 0's scoring-network id) changes tree 1's decision output. -/
theorem C6_counterexample :
    ((allocForest (some 0) 2 1).1.getD 0 ⟨0, 0⟩).netId =
      ((allocForest (some 0) 2 1).1.getD 1 ⟨0, 0⟩).netId ∧
    (allocForest (some 0) 2 1).1.getD 0 ⟨0, 0⟩ ≠
      (allocForest (some 0) 2 1).1.getD 1 ⟨0, 0⟩ ∧
    (treeOutputOf
        (Function.update (fun _ => fun _ => [(1 : ℝ) / 2, 1 / 2, 1 / 2])
          (((allocForest (some 0) 2 1).1.getD 0 ⟨0, 0⟩).netId)
          (fun _ => [(1 : ℝ), 1, 1]))
        (fun _ => [[0], [0], [0], [0]]) 1 1
        ((allocForest (some 0) 2 1).1.getD 1 ⟨0, 0⟩) [[0]]).1 ≠
      (treeOutputOf (fun _ => fun _ => [(1 : ℝ) / 2, 1 / 2, 1 / 2])
        (fun _ => [[0], [0], [0], [0]]) 1 1
        ((allocForest (some 0) 2 1).1.getD 1 ⟨0, 0⟩) [[0]]).1 := by
  have hT : (allocForest (some 0) 2 1).1 = [⟨0, 1⟩, ⟨0, 2⟩] := by decide
  have h0 : (allocForest (some 0) 2 1).1.getD 0 ⟨0, 0⟩ = ⟨0, 1⟩ := by
    rw [hT]
    rfl
  have h1 : (allocForest (some 0) 2 1).1.getD 1 ⟨0, 0⟩ = ⟨0, 2⟩ := by
    rw [hT]
    rfl
  refine ⟨by rw [h0, h1], by rw [h0, h1]; decide, ?_⟩
  rw [h0, h1]
  simp only [treeOutputOf, treeForward, Function.update_same, List.map_cons,
    List.map_nil, eval_ones_rowDecision, eval_half_rowDecision]
  intro hcon
  simp only [List.cons.injEq, and_true] at hcon
  norm_num at hcon

end TensorMONK
